import Mathlib

/-!
Verification of the PyDuko Sudoku solver (src/main.py).

The board is the dict `Board.board : (x, y) → Cell` of the source, stored
here as a list of 81 cells in the iteration order of `iter_cells`
(row-major: y outer, x inner), so the cell at coordinates (x, y) lives at
linear index `y * 9 + x`.  A `Cell` keeps its mutable fields `value` and
`possibles`; the immutable coordinates of a cell are represented by its
index in the list.  Python sets of small integers are modelled as sorted
lists (only membership, cardinality and the unique element of a singleton
are ever consumed by the source).  The single exception class
`Board.BoardException` is raised at three distinct sites with distinct
messages; the error type below has one constructor per site, matching the
error kinds named by the specification.
-/

namespace PyDuko

/-- The full candidate set `set(range(1, 10))` of the source, as a sorted list. -/
def nums19 : List Nat := [1, 2, 3, 4, 5, 6, 7, 8, 9]

/-- One cell of the board: mutable assigned value (`None` = unassigned) and
mutable candidate set `possibles`. -/
structure Cell where
  value : Option Nat
  possibles : List Nat
deriving DecidableEq

/-- The board: the 81 cells of `Board.board`, row-major (index i = y*9+x). -/
abbrev Board := List Cell

/-- Placeholder cell used for out-of-range list reads; a well-formed board
has 81 cells so it is never consulted on source-reachable indices. -/
def cellDefault : Cell := ⟨none, []⟩

/-- Assigned value of the cell at linear index i. -/
def cellVal (g : Board) (i : Nat) : Option Nat := (g.getD i cellDefault).value

/-- Board.get_cell: value of the cell at coordinates (x, y). -/
def get_cell (g : Board) (x y : Nat) : Option Nat := cellVal g (y * 9 + x)

/-- Board.__init__ with no state: 81 cells, value None, full candidates. -/
def fresh_board : Board := List.replicate 81 ⟨none, nums19⟩

/-- Board.set_cell / direct `cell.value = v` assignment: replace the value
of the cell at (x, y), keeping its candidate set. -/
def set_cell (g : Board) (x y : Nat) (v : Option Nat) : Board :=
  g.set (y * 9 + x) { g.getD (y * 9 + x) cellDefault with value := v }

/-- Board.get_row: assigned values of row y, in x order. -/
def get_row (g : Board) (y : Nat) : List Nat :=
  (List.range 9).filterMap (fun x => get_cell g x y)

/-- Board.get_column: assigned values of column x, in y order. -/
def get_column (g : Board) (x : Nat) : List Nat :=
  (List.range 9).filterMap (fun y => get_cell g x y)

/-- Board.get_chunk: assigned values of 3x3 chunk i (x_start = (i%3)*3,
y_start = (i/3)*3), scanning y outer and x inner; iteration step d of the
two nested range-3 loops visits (x_start + d%3, y_start + d/3). -/
def get_chunk (g : Board) (i : Nat) : List Nat :=
  (List.range 9).filterMap
    (fun d => get_cell g ((i % 3) * 3 + d % 3) ((i / 3) * 3 + d / 3))

/-- Test `len(set(l)) == len(l)` of the source: no repeated element. -/
def no_dups : List Nat → Bool
  | [] => true
  | a :: as => (!as.contains a) && no_dups as

/-- Board.is_valid: every row, column and chunk is duplicate-free. -/
def is_valid (g : Board) : Bool :=
  (List.range 9).all
    (fun i => no_dups (get_row g i) && no_dups (get_column g i) && no_dups (get_chunk g i))

/-- Error kinds of the source, one per raise site of Board.BoardException:
bad serialization length, a cell with no possible values during
propagation, and an invalid board state. -/
inductive BErr where
  | formatError
  | unsolvableError (x y : Nat)
  | invalidStateError
deriving DecidableEq

/-- Cell.clone: copies (x, y, value); candidates are rebuilt by the Cell
constructor (empty when assigned, full when unassigned), never copied. -/
def clone_cell (c : Cell) : Cell :=
  { value := c.value, possibles := if c.value.isSome then [] else nums19 }

/-- Board.clone: deep copy, cell by cell. -/
def clone (g : Board) : Board := g.map clone_cell

/-- Board.would_be_valid: set the value on a clone and check its validity. -/
def would_be_valid (g : Board) (x y v : Nat) : Bool :=
  is_valid (set_cell (clone g) x y (some v))

/-- Board.clear_board: `cell.possibles.clear()` empties the candidate set
and `cell.value = None` unassigns, for every cell. -/
def clear_board (g : Board) : Board :=
  g.map (fun c => { c with possibles := [], value := none })

/-- Board.is_solved: raises on an invalid board, else reports whether all
cells hold a value. -/
def is_solved (g : Board) : Except BErr Bool :=
  if !is_valid g then .error .invalidStateError
  else .ok (g.all (fun c => c.value.isSome))

/-- Character decoding of Board.load_from_string: a digit becomes its
value via `int(value)`, any other character becomes None. -/
def char_to_val (ch : Char) : Option Nat :=
  if ch.isDigit then some (ch.toNat - 48) else none

/-- Board.load_from_string: reject any length other than 81, else clear
the board and write the decoded character i into the cell at index i
(x = i%9, y = i/9, which is exactly linear index i). -/
def load_from_string (g : Board) (s : List Char) : Except BErr Board :=
  if s.length ≠ 81 then .error .formatError
  else .ok (List.zipWith (fun c ch => { c with value := char_to_val ch }) (clear_board g) s)

/-- Board.save_to_string: concatenate `str(cell.value)` for assigned
cells and "." for unassigned ones, in board order. -/
def save_to_string (g : Board) : List Char :=
  g.flatMap (fun c => match c.value with
    | some v => (toString v).toList
    | none => ['.'])

/-- Board.get_unsolved_cells. -/
def get_unsolved_cells (g : Board) : List Cell := g.filter (fun c => c.value.isNone)

/-- Board.get_unsolved_count. -/
def get_unsolved_count (g : Board) : Nat := (get_unsolved_cells g).length

/-- Cell.get_chunk_number: `(y // 3) * 3 + (x // 3)`. -/
def get_chunk_number (x y : Nat) : Nat := (y / 3) * 3 + x / 3

/-- Cell.get_possible_values for an unassigned cell at (x, y): full set
minus every value assigned in the row, column and containing chunk. -/
def get_possible_values (g : Board) (x y : Nat) : List Nat :=
  nums19.filter (fun v =>
    !((get_row g y).contains v || (get_column g x).contains v ||
      (get_chunk g (get_chunk_number x y)).contains v))

/-- One pass of the `for cell in self.iter_cells()` loop of Board.solve,
processing the listed linear indices in order.  For an unassigned cell the
candidates are recomputed and stored; zero candidates raise the
unsolvable error; exactly one candidate is popped and assigned (leaving
the stored candidate set empty).  After every cell the whole board is
checked for validity. -/
def solve_pass_aux : List Nat → Board → Except BErr Board
  | [], g => .ok g
  | i :: rest, g =>
    match (g.getD i cellDefault).value with
    | some _ =>
      if is_valid g then solve_pass_aux rest g else .error .invalidStateError
    | none =>
      match get_possible_values g (i % 9) (i / 9) with
      | [] => .error (.unsolvableError (i % 9) (i / 9))
      | [v] =>
        let g' := g.set i { value := some v, possibles := [] }
        if is_valid g' then solve_pass_aux rest g' else .error .invalidStateError
      | ps =>
        let g' := g.set i { value := none, possibles := ps }
        if is_valid g' then solve_pass_aux rest g' else .error .invalidStateError

/-- One full scan of all 81 cells inside Board.solve. -/
def solve_pass (g : Board) : Except BErr Board := solve_pass_aux (List.range 81) g

/-- Board.solve, fuel-indexed: each fuel unit is one iteration of the
`while True` loop (one full pass followed by the unsolved-count test).
`.ok none` means the loop is still running after the given number of
iterations, so `∀ n, solve_loop n g = .ok none` says the source loops
forever on g: it neither returns nor raises. -/
def solve_loop : Nat → Board → Except BErr (Option Board)
  | 0, _ => .ok none
  | n + 1, g =>
    match solve_pass g with
    | .error e => .error e
    | .ok g' => if get_unsolved_count g' = 0 then .ok (some g') else solve_loop n g'

/-- First cell with value None in iteration order, as a linear index
(the `for cell in self.iter_cells(): if cell.value is None:` scan of
Board.solve_sudoku). -/
def find_empty_aux : List Cell → Nat → Option Nat
  | [], _ => none
  | c :: rest, i => if c.value.isNone then some i else find_empty_aux rest (i + 1)

/-- Index of the first unassigned cell of the board, if any. -/
def find_empty (g : Board) : Option Nat := find_empty_aux g 0

/-- The `for num in nums` loop body of Board.solve_sudoku: try each
candidate in order on the cell at (x, y); a candidate passing
would_be_valid is written into the cell and the recursive solve
(supplied as solveF, already applied to the remaining fuel) is run on
the mutated board; on recursive failure the cell is written back to
None on the board state returned by the failed recursion, exactly as
the source mutates and un-mutates, and the next candidate is tried.
The counter k numbers the calls of `random.shuffle` in execution
order and is threaded through like the global random state. -/
def try_nums (solveF : Nat → Board → Option (Bool × Board × Nat)) :
    List Nat → Nat → Nat → Nat → Board → Option (Bool × Board × Nat)
  | [], _, _, k, g => some (false, g, k)
  | n :: rest, x, y, k, g =>
    if would_be_valid g x y n then
      match solveF k (set_cell g x y (some n)) with
      | none => none
      | some (true, g', k') => some (true, g', k')
      | some (false, g', k') => try_nums solveF rest x y k' (set_cell g' x y none)
    else try_nums solveF rest x y k g

/-- Board.solve_sudoku, fuel-indexed (fuel bounds the recursion depth;
`none` is returned only on fuel exhaustion, which a fuel above the
unsolved-cell count rules out).  The stream sh supplies the successive
results of `random.shuffle([1, ..., 9])`, consumed in call order via
the counter k.  Find the first unassigned cell; with none left report
success; otherwise run the candidate loop on that cell. -/
def solve_sudoku (sh : Nat → List Nat) : Nat → Nat → Board → Option (Bool × Board × Nat)
  | 0, _, _ => none
  | fuel + 1, k, g =>
    match find_empty g with
    | none => some (true, g, k)
    | some i => try_nums (solve_sudoku sh fuel) (sh k) (i % 9) (i / 9) (k + 1) g

/-- Pointwise domination of assigned values: every value assigned in g is
assigned identically in sol. -/
def ValLe (g sol : Board) : Prop := ∀ i v, cellVal g i = some v → cellVal sol i = some v

/-- Every cell of the board holds a value. -/
def CompleteB (g : Board) : Prop := ∀ c ∈ g, c.value ≠ none

/-- Every assigned value lies in 1..9. -/
def InRange (g : Board) : Prop := ∀ c ∈ g, ∀ v, c.value = some v → v ∈ nums19

instance completeB_decidable (g : Board) : Decidable (CompleteB g) :=
  inferInstanceAs (Decidable (∀ c ∈ g, c.value ≠ none))

instance cell_range_decidable (c : Cell) :
    Decidable (∀ v, c.value = some v → v ∈ nums19) :=
  match c.value with
  | none => isTrue (by
      intro v hv
      cases hv)
  | some w =>
    if hw : w ∈ nums19 then
      isTrue (by
        intro v hv
        injection hv with hv2
        rw [← hv2]
        exact hw)
    else isFalse (fun h => hw (h w rfl))

instance inRange_decidable (g : Board) : Decidable (InRange g) :=
  inferInstanceAs (Decidable (∀ c ∈ g, ∀ v, c.value = some v → v ∈ nums19))

/-- The board can be extended (by assigning values to unassigned cells
only) to a complete valid board with values in 1..9. -/
def Extendable (g : Board) : Prop :=
  ∃ sol : Board, sol.length = g.length ∧ ValLe g sol ∧ CompleteB sol ∧
    is_valid sol = true ∧ InRange sol

/-- Positions (x1, y1) and (x2, y2) share a row, a column or a 3x3 chunk. -/
def SameUnit (x1 y1 x2 y2 : Nat) : Prop :=
  y1 = y2 ∨ x1 = x2 ∨ get_chunk_number x1 y1 = get_chunk_number x2 y2

/-- Some assigned value occurs at two distinct in-range positions lying in
a common row, column or chunk. -/
def HasConflict (g : Board) : Prop :=
  ∃ x1 y1 x2 y2 v, x1 < 9 ∧ y1 < 9 ∧ x2 < 9 ∧ y2 < 9 ∧
    (x1, y1) ≠ (x2, y2) ∧ SameUnit x1 y1 x2 y2 ∧
    get_cell g x1 y1 = some v ∧ get_cell g x2 y2 = some v

/-- A complete valid grid (the within-chunk cyclic construction); rows are
123456789, 456789123, 789123456, 231564897, 564897231, 897231564,
312645978, 645978312, 978312645. -/
def solStr : String :=
  "123456789456789123789123456231564897564897231897231564312645978645978312978312645"

/-- The grid of solStr blanked at the six cells (0..2, 0) and (0..2, 3).
The blanked values form two 3-cycles (1 2 3 over row 0 and 2 3 1 over
row 3), so every blank cell keeps exactly two candidates, no naked
single exists anywhere, and the blanks admit more than one completion:
deduction is stuck and a guess is required. -/
def stuckStr : String :=
  "...456789456789123789123456...564897564897231897231564312645978645978312978312645"

/-- Helper extracting the board of a successful parse. -/
def parsed (s : String) : Board :=
  ((load_from_string fresh_board s.toList).toOption).getD fresh_board

/-- The stuck board: parse of stuckStr. -/
def gStuck : Board := parsed stuckStr

/-- The board state after one full propagation pass over gStuck (values
unchanged, candidate sets of the six blank cells now stored). -/
def gStuck1 : Board := ((solve_pass gStuck).toOption).getD fresh_board

/-- The complete valid board: parse of solStr. -/
def solBoard : Board := parsed solStr

/-- A second completion of the stuck grid: the six blanked cells filled
the other way around (2 3 1 over row 0 and 1 2 3 over row 3). -/
def altStr : String :=
  "231456789456789123789123456123564897564897231897231564312645978645978312978312645"

/-- Parse of altStr. -/
def altBoard : Board := parsed altStr

/-- Bounded decidable check that every value assigned in g is assigned
identically in sol (the restriction of ValLe to the 81 indices). -/
def val_le_check (g sol : Board) : Bool :=
  (List.range 81).all (fun i =>
    match cellVal g i with
    | none => true
    | some v => cellVal sol i == some v)

/-- A contradictory board: row 0 holds 1..8 with (8, 0) blank, and 9 sits
at (8, 1), so no value can legally enter (8, 0). -/
def gBad : Board :=
  parsed "12345678.........9..............................................................."

/-- The 89-character string of the specification scenario: "11" followed
by 87 dots. -/
def c8SpecStr : String :=
  "11......................................................................................."

/-- The 81-character variant: "11" followed by 79 dots. -/
def c8FixedStr : String :=
  "11..............................................................................."

/-- Parse of c8FixedStr. -/
def c8Board : Board := parsed c8FixedStr

deriving instance DecidableEq for Except

/-! Helper lemmas. -/

theorem no_dups_iff (l : List Nat) : no_dups l = true ↔ l.Nodup := by
  induction l with
  | nil => simp [no_dups]
  | cons a as ih => simp [no_dups, ih, List.nodup_cons]

theorem is_valid_iff (g : Board) : is_valid g = true ↔
    ∀ i < 9, (get_row g i).Nodup ∧ (get_column g i).Nodup ∧ (get_chunk g i).Nodup := by
  simp only [is_valid, List.all_eq_true, List.mem_range, Bool.and_eq_true, no_dups_iff,
    and_assoc]

/-! Claim C7: behaviour of clear_board. -/

/-- Claim C7 (amended): after clear_board every cell is unassigned, but
its candidate set is the EMPTY set, not the full set [1,9]: the source
calls `cell.possibles.clear()` (which empties the Python set), not
`Cell.clear()` (which would reset it to the full set). -/
theorem clear_board_resets (g : Board) :
    ∀ c ∈ clear_board g, c.value = none ∧ c.possibles = [] := by
  intro c hc
  simp only [clear_board, List.mem_map] at hc
  obtain ⟨c0, _, rfl⟩ := hc
  exact ⟨rfl, rfl⟩

/-- Claim C7, counterexample to the claim as stated: on the freshly
constructed board, clear_board does NOT leave every cell with the full
candidate set [1,9]. -/
theorem clear_board_not_full :
    ¬ (∀ c ∈ clear_board fresh_board, c.value = none ∧ c.possibles = nums19) := by
  decide

/-- Witness for clear_board_resets at a concrete cell of a concrete board. -/
theorem clear_board_resets_witness :
    ((⟨none, []⟩ : Cell) ∈ clear_board fresh_board) ∧
      ((⟨none, []⟩ : Cell).value = none ∧ (⟨none, []⟩ : Cell).possibles = []) :=
  ⟨by decide, clear_board_resets fresh_board ⟨none, []⟩ (by decide)⟩

/-! Claim C5: is_solved. -/

/-- Claim C5: is_solved fails with the invalid-state error exactly when the
board is invalid; on a valid board it returns true exactly when every cell
holds a value. -/
theorem is_solved_spec (g : Board) :
    (is_solved g = .error .invalidStateError ↔ is_valid g = false) ∧
    (is_valid g = true → (is_solved g = .ok true ↔ ∀ c ∈ g, c.value ≠ none)) := by
  constructor
  · cases hv : is_valid g <;> simp [is_solved, hv]
  · intro hv
    simp [is_solved, hv, List.all_eq_true, Option.isSome_iff_ne_none]

/-- Witness for is_solved_spec on the complete valid board. -/
theorem is_solved_spec_witness :
    (is_solved solBoard = .error .invalidStateError ↔ is_valid solBoard = false) ∧
      (is_valid solBoard = true →
        (is_solved solBoard = .ok true ↔ ∀ c ∈ solBoard, c.value ≠ none)) :=
  is_solved_spec solBoard

/-! Claim C6: length check of load_from_string. -/

/-- Claim C6: parsing fails with the format error for every string whose
length is not 81, and succeeds for every string of length exactly 81. -/
theorem load_from_string_length (g : Board) (s : List Char) :
    (s.length ≠ 81 → load_from_string g s = .error .formatError) ∧
    (s.length = 81 → ∃ g', load_from_string g s = .ok g') := by
  constructor <;> intro h <;> simp [load_from_string, h]

/-- Witness for load_from_string_length: an 80-character string is
rejected and an 81-character string is accepted. -/
theorem load_from_string_length_witness :
    load_from_string fresh_board (List.replicate 80 '.') = .error .formatError ∧
      ∃ g', load_from_string fresh_board (List.replicate 81 '.') = .ok g' :=
  ⟨(load_from_string_length fresh_board (List.replicate 80 '.')).1 (by decide),
   (load_from_string_length fresh_board (List.replicate 81 '.')).2 (by decide)⟩

/-! Claim C8: the two-ones scenario string. -/

/-- Claim C8, counterexample: the scenario string of the specification is
"11" followed by 87 dots, which has 89 characters, so parsing it fails
with the format error instead of succeeding. -/
theorem c8_spec_string_rejected :
    c8SpecStr.toList.length = 89 ∧
      load_from_string fresh_board c8SpecStr.toList = .error .formatError := by
  constructor
  · decide
  · exact (load_from_string_length fresh_board c8SpecStr.toList).1 (by decide)

/-- Claim C8 (amended): the 81-character string "11" followed by 79 dots
parses successfully and the parsed board is invalid, because row 0 holds
two cells with value 1. -/
theorem c8_fixed_parses_invalid :
    load_from_string fresh_board c8FixedStr.toList = .ok c8Board ∧
      is_valid c8Board = false := by
  constructor
  · decide
  · decide

/-! Serialization lemmas: shape of a successful parse, and the behaviour
of save_to_string on parsed boards. -/

theorem zipWith_replicate_left (f : Cell → Char → Cell) (a : Cell) :
    ∀ (s : List Char) (n : Nat), s.length = n →
      List.zipWith f (List.replicate n a) s = s.map (f a) := by
  intro s
  induction s with
  | nil => intro n h; subst h; rfl
  | cons b t ih =>
    intro n h
    subst h
    simp only [List.length_cons, List.replicate_succ, List.zipWith_cons_cons, List.map_cons]
    rw [ih t.length rfl]

theorem clear_fresh : clear_board fresh_board = List.replicate 81 ⟨none, []⟩ := by decide

theorem load_ok (s : List Char) (h : s.length = 81) :
    load_from_string fresh_board s =
      .ok (s.map (fun ch => (⟨char_to_val ch, []⟩ : Cell))) := by
  have hne : ¬ s.length ≠ 81 := by omega
  simp only [load_from_string, if_neg hne, clear_fresh]
  rw [zipWith_replicate_left _ _ s 81 h]

theorem toString_digit_char (ch : Char) (h : ch.isDigit = true) :
    (toString (ch.toNat - 48)).toList = [ch] := by
  simp only [Char.isDigit, decide_eq_true_eq, Bool.and_eq_true] at h
  obtain ⟨h1, h2⟩ := h
  have h1n : 48 ≤ ch.toNat := h1
  have h2n : ch.toNat ≤ 57 := h2
  have h10 : ch.toNat - 48 < 10 := by omega
  rw [(show ∀ v, v < 10 → (toString v).toList = [Char.ofNat (48 + v)] by decide) _ h10]
  have h48 : 48 + (ch.toNat - 48) = ch.toNat := by omega
  rw [h48, Char.ofNat_toNat]

theorem save_parse (s : List Char) :
    save_to_string (s.map (fun ch => (⟨char_to_val ch, []⟩ : Cell))) =
      s.map (fun ch => if ch.isDigit then ch else '.') := by
  induction s with
  | nil => rfl
  | cons ch t ih =>
    simp only [List.map_cons, save_to_string, List.flatMap_cons] at ih ⊢
    rw [ih]
    cases hd : ch.isDigit with
    | true =>
      simp only [char_to_val, hd, if_pos]
      rw [toString_digit_char ch hd]
      rfl
    | false =>
      simp only [char_to_val, hd]
      rfl

/-! Claim C3: serialize after parse is the identity on digit-and-dot
strings of length 81. -/

/-- Claim C3: for every 81-character string of ASCII digits and dots,
parsing succeeds and serializing the parsed board returns the string. -/
theorem save_after_load (s : List Char) (h81 : s.length = 81)
    (hall : ∀ ch ∈ s, ch.isDigit = true ∨ ch = '.') :
    ∃ g, load_from_string fresh_board s = .ok g ∧ save_to_string g = s := by
  refine ⟨_, load_ok s h81, ?_⟩
  rw [save_parse]
  have hid : ∀ ch ∈ s, (if ch.isDigit then ch else '.') = id ch := by
    intro ch hm
    rcases hall ch hm with hd | hd
    · simp [hd]
    · simp [hd]
  rw [List.map_congr_left hid, List.map_id]

/-- Witness for save_after_load on the complete-grid string. -/
theorem save_after_load_witness :
    ∃ g, load_from_string fresh_board solStr.toList = .ok g ∧
      save_to_string g = solStr.toList :=
  save_after_load solStr.toList (by decide) (by decide)

/-! Claim C9: the character 0 parses to the assigned value 0. -/

/-- Claim C9: in any 81-character string, a character 0 at position i
parses to the assigned value 0 at cell i (an assigned value outside
[1,9]), and serializing the parsed board emits 0 at position i again. -/
theorem parse_zero_char (s : List Char) (i : Nat) (h81 : s.length = 81)
    (hi : i < 81) (h0 : s.getD i ' ' = '0') :
    ∃ g, load_from_string fresh_board s = .ok g ∧
      cellVal g i = some 0 ∧ (save_to_string g).getD i ' ' = '0' := by
  refine ⟨_, load_ok s h81, ?_, ?_⟩
  · have hlen : i < s.length := by omega
    have hmap : i < (s.map (fun ch => (⟨char_to_val ch, []⟩ : Cell))).length := by
      simpa using hlen
    rw [cellVal, List.getD_eq_getElem _ _ hmap]
    rw [List.getElem_map]
    rw [List.getD_eq_getElem _ _ hlen] at h0
    rw [h0]
    rfl
  · rw [save_parse]
    have hlen : i < s.length := by omega
    have hmap : i < (s.map (fun ch => if ch.isDigit then ch else '.')).length := by
      simpa using hlen
    rw [List.getD_eq_getElem _ _ hmap, List.getElem_map]
    rw [List.getD_eq_getElem _ _ hlen] at h0
    rw [h0]
    rfl

/-- Witness for parse_zero_char: a string with 0 in its first cell. -/
theorem parse_zero_char_witness :
    ∃ g, load_from_string fresh_board
        ('0' :: List.replicate 80 '.') = .ok g ∧
      cellVal g 0 = some 0 ∧ (save_to_string g).getD 0 ' ' = '0' :=
  parse_zero_char ('0' :: List.replicate 80 '.') 0 (by decide) (by decide) (by decide)

/-! Claim C4: machinery relating duplicate values in a unit list to two
distinct source positions. -/

theorem count_one_filterMap_range (f : Nat → Option Nat) (v n : Nat) :
    1 ≤ ((List.range n).filterMap f).count v ↔ ∃ i, i < n ∧ f i = some v := by
  have := List.count_pos_iff (a := v) (l := (List.range n).filterMap f)
  constructor
  · intro h
    have hm := this.mp h
    rw [List.mem_filterMap] at hm
    obtain ⟨i, hir, hfi⟩ := hm
    exact ⟨i, List.mem_range.mp hir, hfi⟩
  · rintro ⟨i, hin, hfi⟩
    exact this.mpr (List.mem_filterMap.mpr ⟨i, List.mem_range.mpr hin, hfi⟩)

theorem count_filterMap_range_two (f : Nat → Option Nat) (v : Nat) :
    ∀ n, 2 ≤ ((List.range n).filterMap f).count v ↔
      ∃ i j, i < j ∧ j < n ∧ f i = some v ∧ f j = some v := by
  intro n
  induction n with
  | zero => simp
  | succ n ih =>
    rw [List.range_succ, List.filterMap_append, List.count_append]
    cases hfn : f n with
    | none =>
      have h0 : (List.filterMap f [n]).count v = 0 := by
        simp [List.filterMap_cons, hfn]
      rw [h0, Nat.add_zero, ih]
      constructor
      · rintro ⟨i, j, hij, hjn, hfi, hfj⟩
        exact ⟨i, j, hij, Nat.lt_succ_of_lt hjn, hfi, hfj⟩
      · rintro ⟨i, j, hij, hjn, hfi, hfj⟩
        refine ⟨i, j, hij, ?_, hfi, hfj⟩
        rcases Nat.lt_succ_iff_lt_or_eq.mp hjn with h | h
        · exact h
        · subst h; rw [hfn] at hfj; cases hfj
    | some w =>
      by_cases hwv : w = v
      · subst hwv
        have h1 : (List.filterMap f [n]).count w = 1 := by
          simp [List.filterMap_cons, hfn]
        rw [h1]
        constructor
        · intro h
          have hc1 : 1 ≤ ((List.range n).filterMap f).count w ∨
              2 ≤ ((List.range n).filterMap f).count w := by omega
          rcases hc1 with hc | hc
          · obtain ⟨i, hin, hfi⟩ := (count_one_filterMap_range f w n).mp hc
            exact ⟨i, n, hin, Nat.lt_succ_self n, hfi, hfn⟩
          · obtain ⟨i, j, hij, hjn, hfi, hfj⟩ := ih.mp hc
            exact ⟨i, j, hij, Nat.lt_succ_of_lt hjn, hfi, hfj⟩
        · rintro ⟨i, j, hij, hjn, hfi, hfj⟩
          rcases Nat.lt_succ_iff_lt_or_eq.mp hjn with h | h
          · have := ih.mpr ⟨i, j, hij, h, hfi, hfj⟩
            omega
          · have hin : i < n := h ▸ hij
            have := (count_one_filterMap_range f w n).mpr ⟨i, hin, hfi⟩
            omega
      · have h0 : (List.filterMap f [n]).count v = 0 := by
          simp [List.filterMap_cons, hfn, List.count_cons, hwv]
        rw [h0, Nat.add_zero, ih]
        constructor
        · rintro ⟨i, j, hij, hjn, hfi, hfj⟩
          exact ⟨i, j, hij, Nat.lt_succ_of_lt hjn, hfi, hfj⟩
        · rintro ⟨i, j, hij, hjn, hfi, hfj⟩
          refine ⟨i, j, hij, ?_, hfi, hfj⟩
          rcases Nat.lt_succ_iff_lt_or_eq.mp hjn with h | h
          · exact h
          · subst h; rw [hfn] at hfj
            cases hfj; exact absurd rfl hwv

theorem not_nodup_filterMap_range (f : Nat → Option Nat) (n : Nat) :
    ¬ ((List.range n).filterMap f).Nodup ↔
      ∃ v i j, i < j ∧ j < n ∧ f i = some v ∧ f j = some v := by
  rw [List.nodup_iff_count_le_one]
  push_neg
  constructor
  · rintro ⟨v, hv⟩
    exact ⟨v, (count_filterMap_range_two f v n).mp (by omega)⟩
  · rintro ⟨v, hv⟩
    refine ⟨v, ?_⟩
    have := (count_filterMap_range_two f v n).mpr hv
    omega

theorem invalid_of_conflict (g : Board) (h : HasConflict g) : is_valid g = false := by
  obtain ⟨x1, y1, x2, y2, v, hx1, hy1, hx2, hy2, hne, hunit, hv1, hv2⟩ := h
  cases hvalid : is_valid g with
  | false => rfl
  | true =>
    exfalso
    have hall := (is_valid_iff g).mp hvalid
    rcases hunit with hrow | hcol | hchunk
    · subst hrow
      have hxne : x1 ≠ x2 := fun hx => hne (by rw [hx])
      have hnd : ¬ ((List.range 9).filterMap (fun x => get_cell g x y1)).Nodup := by
        rw [not_nodup_filterMap_range]
        rcases Nat.lt_or_ge x1 x2 with hlt | hge
        · exact ⟨v, x1, x2, hlt, hx2, hv1, hv2⟩
        · exact ⟨v, x2, x1, by omega, hx1, hv2, hv1⟩
      exact hnd ((hall y1 hy1).1)
    · subst hcol
      have hyne : y1 ≠ y2 := fun hy => hne (by rw [hy])
      have hnd : ¬ ((List.range 9).filterMap (fun y => get_cell g x1 y)).Nodup := by
        rw [not_nodup_filterMap_range]
        rcases Nat.lt_or_ge y1 y2 with hlt | hge
        · exact ⟨v, y1, y2, hlt, hy2, hv1, hv2⟩
        · exact ⟨v, y2, y1, by omega, hy1, hv2, hv1⟩
      exact hnd ((hall x1 hx1).2.1)
    · simp only [get_chunk_number] at hchunk
      set c := (y1 / 3) * 3 + x1 / 3 with hc
      have hc9 : c < 9 := by omega
      set d1 := (y1 % 3) * 3 + x1 % 3 with hd1
      set d2 := (y2 % 3) * 3 + x2 % 3 with hd2
      have hp1 : (c % 3) * 3 + d1 % 3 = x1 ∧ (c / 3) * 3 + d1 / 3 = y1 := by omega
      have hp2 : (c % 3) * 3 + d2 % 3 = x2 ∧ (c / 3) * 3 + d2 / 3 = y2 := by omega
      have hdne : d1 ≠ d2 := by
        intro hdd
        apply hne
        have hx : x1 = x2 := by omega
        have hy : y1 = y2 := by omega
        rw [hx, hy]
      have hf1 : get_cell g ((c % 3) * 3 + d1 % 3) ((c / 3) * 3 + d1 / 3) = some v := by
        rw [hp1.1, hp1.2]; exact hv1
      have hf2 : get_cell g ((c % 3) * 3 + d2 % 3) ((c / 3) * 3 + d2 / 3) = some v := by
        rw [hp2.1, hp2.2]; exact hv2
      have hnd : ¬ ((List.range 9).filterMap
          (fun d => get_cell g ((c % 3) * 3 + d % 3) ((c / 3) * 3 + d / 3))).Nodup := by
        rw [not_nodup_filterMap_range]
        rcases Nat.lt_or_ge d1 d2 with hlt | hge
        · exact ⟨v, d1, d2, hlt, by omega, hf1, hf2⟩
        · exact ⟨v, d2, d1, by omega, by omega, hf2, hf1⟩
      exact hnd ((hall c hc9).2.2)

theorem conflict_of_invalid (g : Board) (h : is_valid g = false) : HasConflict g := by
  have hnall : ¬ ∀ i, i < 9 →
      ((get_row g i).Nodup ∧ (get_column g i).Nodup ∧ (get_chunk g i).Nodup) := by
    rw [← is_valid_iff]
    simp [h]
  rw [not_forall] at hnall
  obtain ⟨i, hbad⟩ := hnall
  rw [Classical.not_imp] at hbad
  obtain ⟨hi9, hbad⟩ := hbad
  by_cases hA : (get_row g i).Nodup
  · by_cases hB : (get_column g i).Nodup
    · have hC : ¬ (get_chunk g i).Nodup := fun hC => hbad ⟨hA, hB, hC⟩
      rw [show get_chunk g i = (List.range 9).filterMap
        (fun d => get_cell g ((i % 3) * 3 + d % 3) ((i / 3) * 3 + d / 3)) from rfl,
        not_nodup_filterMap_range] at hC
      obtain ⟨v, d1, d2, hdd, hd9, hf1, hf2⟩ := hC
      refine ⟨(i % 3) * 3 + d1 % 3, (i / 3) * 3 + d1 / 3,
             (i % 3) * 3 + d2 % 3, (i / 3) * 3 + d2 / 3, v,
             by omega, by omega, by omega, by omega, ?_, ?_, hf1, hf2⟩
      · intro hpq
        have h1 : (i % 3) * 3 + d1 % 3 = (i % 3) * 3 + d2 % 3 := congrArg Prod.fst hpq
        have h2 : (i / 3) * 3 + d1 / 3 = (i / 3) * 3 + d2 / 3 := congrArg Prod.snd hpq
        omega
      · right; right
        simp only [get_chunk_number]
        omega
    · rw [show get_column g i = (List.range 9).filterMap (fun y => get_cell g i y) from rfl,
        not_nodup_filterMap_range] at hB
      obtain ⟨v, y1, y2, hyy, hy9, hf1, hf2⟩ := hB
      refine ⟨i, y1, i, y2, v, hi9, by omega, hi9, hy9, ?_, Or.inr (Or.inl rfl), hf1, hf2⟩
      intro hpq
      have h2 : y1 = y2 := congrArg Prod.snd hpq
      omega
  · rw [show get_row g i = (List.range 9).filterMap (fun x => get_cell g x i) from rfl,
      not_nodup_filterMap_range] at hA
    obtain ⟨v, x1, x2, hxx, hx9, hf1, hf2⟩ := hA
    refine ⟨x1, i, x2, i, v, by omega, hi9, hx9, hi9, ?_, Or.inl rfl, hf1, hf2⟩
    intro hpq
    have h1 : x1 = x2 := congrArg Prod.fst hpq
    omega

/-- Claim C4: is_valid is false exactly when some assigned value occurs at
two distinct cells of one row, one column or one 3x3 chunk; unassigned
cells never contribute. -/
theorem is_valid_false_iff_conflict (g : Board) :
    is_valid g = false ↔ HasConflict g :=
  ⟨conflict_of_invalid g, invalid_of_conflict g⟩

/-! Claim C1: behaviour of Board.solve on a board where deduction is
stuck.  The source has no stall detection: when every unsolved cell keeps
at least two candidates across a full pass, the pass changes no value and
raises nothing, the unsolved count stays positive, and the while-True
loop runs forever instead of raising the unsolvable error. -/

theorem solve_pass_gStuck : solve_pass gStuck = .ok gStuck1 := by decide

theorem solve_pass_gStuck1 : solve_pass gStuck1 = .ok gStuck1 := by decide

theorem unsolved_gStuck1 : get_unsolved_count gStuck1 ≠ 0 := by decide

theorem solve_loop_fix (g1 : Board) (hfix : solve_pass g1 = .ok g1)
    (hcnt : get_unsolved_count g1 ≠ 0) : ∀ n, solve_loop n g1 = .ok none := by
  intro n
  induction n with
  | zero => rfl
  | succ n ih => simp [solve_loop, hfix, hcnt, ih]

/-- Claim C1, behaviour at the failing input: gStuck is a valid board with
six unsolved cells, each keeping two candidates after a full pass; both
solBoard and altBoard complete it validly (a guess is required); and for
every iteration count the solve loop of the source is still running — it
neither terminates nor raises the claimed unsolvable error. -/
theorem solve_diverges_on_stuck :
    get_unsolved_count gStuck = 6 ∧
    is_valid gStuck = true ∧
    ((get_unsolved_cells gStuck1).all (fun c => 2 ≤ c.possibles.length)) = true ∧
    (val_le_check gStuck solBoard ∧ val_le_check gStuck altBoard) ∧
    (solBoard.all (fun c => c.value.isSome) ∧ altBoard.all (fun c => c.value.isSome)) ∧
    (is_valid solBoard ∧ is_valid altBoard) ∧ solBoard ≠ altBoard ∧
    ∀ n : Nat, solve_loop n gStuck = .ok none := by
  refine ⟨by decide, by decide, by decide, by decide, by decide, by decide, by decide, ?_⟩
  intro n
  cases n with
  | zero => rfl
  | succ n =>
    have htail := solve_loop_fix gStuck1 solve_pass_gStuck1 unsolved_gStuck1 n
    simp [solve_loop, solve_pass_gStuck, unsolved_gStuck1, htail]

/-! Board-manipulation lemmas used by the backtracking-solver claims. -/

theorem set_getD_self (l : List Cell) : ∀ i : Nat, l.set i (l.getD i cellDefault) = l := by
  induction l with
  | nil => intro i; rfl
  | cons c t ih =>
    intro i
    cases i with
    | zero => rfl
    | succ i =>
      rw [List.getD_cons_succ]
      show c :: t.set i (t.getD i cellDefault) = c :: t
      rw [ih i]

theorem length_set_cell (g : Board) (x y : Nat) (v : Option Nat) :
    (set_cell g x y v).length = g.length := by
  simp [set_cell]

theorem cellVal_set_self (g : Board) (x y : Nat) (v : Option Nat)
    (h : y * 9 + x < g.length) : cellVal (set_cell g x y v) (y * 9 + x) = v := by
  rw [cellVal, set_cell,
    List.getD_eq_getElem _ _ (by simpa using h), List.getElem_set_self]

theorem cellVal_set_ne (g : Board) (x y j : Nat) (v : Option Nat)
    (h : j ≠ y * 9 + x) : cellVal (set_cell g x y v) j = cellVal g j := by
  rw [cellVal, cellVal, set_cell, List.getD_eq_getElem?_getD, List.getD_eq_getElem?_getD,
    List.getElem?_set_ne (fun he => h he.symm), List.getD_eq_getElem?_getD]

theorem set_same_aux (l : List Cell) (i : Nat) (c : Cell) (w : Option Nat)
    (hi : i < l.length) :
    (l.set i c).set i { (l.set i c).getD i cellDefault with value := w } =
      l.set i { c with value := w } := by
  rw [List.getD_eq_getElem _ _ (by simpa using hi), List.getElem_set_self, List.set_set]

theorem set_cell_set_cell (g : Board) (x y : Nat) (v w : Option Nat) :
    set_cell (set_cell g x y v) x y w = set_cell g x y w := by
  by_cases h : y * 9 + x < g.length
  · unfold set_cell
    exact set_same_aux g (y * 9 + x) _ w h
  · have h1 : ∀ c : Cell, List.set g (y * 9 + x) c = g := fun c =>
      List.set_eq_of_length_le (by omega)
    unfold set_cell
    simp only [h1]

theorem set_cell_none_of_none (g : Board) (x y : Nat)
    (h : cellVal g (y * 9 + x) = none) : set_cell g x y none = g := by
  rw [set_cell]
  have hc : ({ g.getD (y * 9 + x) cellDefault with value := none } : Cell) =
      g.getD (y * 9 + x) cellDefault := by
    cases hg : g.getD (y * 9 + x) cellDefault with
    | mk val poss =>
      rw [cellVal, hg] at h
      simp only at h
      rw [h]
  rw [hc, set_getD_self]

theorem unsolved_count_set (l : List Cell) :
    ∀ (i : Nat) (c : Cell), i < l.length → (l.getD i cellDefault).value = none →
      c.value ≠ none →
      get_unsolved_count (l.set i c) + 1 = get_unsolved_count l := by
  induction l with
  | nil => intro i c h; simp at h
  | cons a t ih =>
    intro i c hlen hold hnew
    cases i with
    | zero =>
      rw [List.getD_cons_zero] at hold
      show get_unsolved_count (c :: t) + 1 = get_unsolved_count (a :: t)
      simp only [get_unsolved_count, get_unsolved_cells, List.filter_cons]
      rw [show (c.value.isNone) = false by
        cases hcv : c.value with
        | none => exact absurd hcv hnew
        | some w => rfl]
      rw [show (a.value.isNone) = true by rw [hold]; rfl]
      simp
    | succ i =>
      rw [List.getD_cons_succ] at hold
      have hlen' : i < t.length := by simpa using hlen
      show get_unsolved_count (a :: t.set i c) + 1 = get_unsolved_count (a :: t)
      simp only [get_unsolved_count, get_unsolved_cells, List.filter_cons]
      cases a.value.isNone with
      | true => simpa using ih i c hlen' hold hnew
      | false => simpa using ih i c hlen' hold hnew

theorem cell_getD_mem (g : Board) (i : Nat) (h : i < g.length) :
    g.getD i cellDefault ∈ g := by
  rw [List.getD_eq_getElem _ _ h]
  exact List.getElem_mem h

theorem inrange_set (g : Board) (x y n : Nat) (hg : InRange g) (hn : n ∈ nums19) :
    InRange (set_cell g x y (some n)) := by
  intro c hc v hv
  rcases List.mem_or_eq_of_mem_set hc with hm | he
  · exact hg c hm v hv
  · rw [he] at hv
    simp only at hv
    cases hv
    exact hn

theorem find_empty_aux_none : ∀ (l : List Cell) (ofs : Nat),
    find_empty_aux l ofs = none ↔ ∀ c ∈ l, c.value ≠ none := by
  intro l
  induction l with
  | nil => intro ofs; simp [find_empty_aux]
  | cons a t ih =>
    intro ofs
    rw [find_empty_aux]
    cases hv : a.value.isNone with
    | true =>
      simp only [if_pos rfl]
      constructor
      · intro h; cases h
      · intro h
        exact absurd (Option.isNone_iff_eq_none.mp hv) (h a (List.mem_cons_self a t))
    | false =>
      rw [if_neg (by simp)]
      rw [ih (ofs + 1)]
      constructor
      · intro h c hc
        rcases List.mem_cons.mp hc with he | hm
        · rw [he]
          intro hnone
          rw [hnone] at hv
          cases hv
        · exact h c hm
      · intro h c hc
        exact h c (List.mem_cons_of_mem a hc)

theorem find_empty_aux_some : ∀ (l : List Cell) (ofs i : Nat),
    find_empty_aux l ofs = some i →
      ∃ j, i = ofs + j ∧ j < l.length ∧ (l.getD j cellDefault).value = none := by
  intro l
  induction l with
  | nil => intro ofs i h; cases h
  | cons a t ih =>
    intro ofs i h
    rw [find_empty_aux] at h
    cases hv : a.value.isNone with
    | true =>
      rw [hv, if_pos rfl] at h
      cases h
      exact ⟨0, by omega, by simp, by
        rw [List.getD_cons_zero]; exact Option.isNone_iff_eq_none.mp hv⟩
    | false =>
      rw [hv, if_neg (by simp)] at h
      obtain ⟨j, hij, hjlen, hval⟩ := ih (ofs + 1) i h
      exact ⟨j + 1, by omega, by simpa using hjlen, by rwa [List.getD_cons_succ]⟩

theorem find_empty_none (g : Board) : find_empty g = none ↔ CompleteB g :=
  find_empty_aux_none g 0

theorem find_empty_some (g : Board) (i : Nat) (h : find_empty g = some i) :
    i < g.length ∧ cellVal g i = none := by
  obtain ⟨j, hij, hjlen, hval⟩ := find_empty_aux_some g 0 i h
  have : i = j := by omega
  subst this
  exact ⟨hjlen, hval⟩

/-! Validity depends only on the assigned values, is preserved under
clone, and is downward closed under removing assignments. -/

theorem get_row_congr (g1 g2 : Board) (h : ∀ i, cellVal g1 i = cellVal g2 i) (y : Nat) :
    get_row g1 y = get_row g2 y :=
  List.filterMap_congr (fun x _ => h (y * 9 + x))

theorem get_column_congr (g1 g2 : Board) (h : ∀ i, cellVal g1 i = cellVal g2 i) (x : Nat) :
    get_column g1 x = get_column g2 x :=
  List.filterMap_congr (fun y _ => h (y * 9 + x))

theorem get_chunk_congr (g1 g2 : Board) (h : ∀ i, cellVal g1 i = cellVal g2 i) (c : Nat) :
    get_chunk g1 c = get_chunk g2 c :=
  List.filterMap_congr (fun d _ => h (((c / 3) * 3 + d / 3) * 9 + ((c % 3) * 3 + d % 3)))

theorem is_valid_congr (g1 g2 : Board) (h : ∀ i, cellVal g1 i = cellVal g2 i) :
    is_valid g1 = is_valid g2 := by
  unfold is_valid
  congr 1
  funext i
  rw [get_row_congr g1 g2 h i, get_column_congr g1 g2 h i, get_chunk_congr g1 g2 h i]

theorem cellVal_clone (g : Board) (i : Nat) : cellVal (clone g) i = cellVal g i := by
  by_cases hi : i < g.length
  · rw [cellVal, cellVal, List.getD_eq_getElem _ _ (by simpa [clone] using hi),
      List.getD_eq_getElem _ _ hi]
    simp [clone, clone_cell]
  · rw [cellVal, cellVal, List.getD_eq_default _ _ (by simpa [clone] using Nat.le_of_not_lt hi),
      List.getD_eq_default _ _ (Nat.le_of_not_lt hi)]

theorem length_clone (g : Board) : (clone g).length = g.length := by
  simp [clone]

theorem would_be_valid_eq (g : Board) (x y v : Nat) :
    would_be_valid g x y v = is_valid (set_cell g x y (some v)) := by
  apply is_valid_congr
  intro j
  by_cases hj : j = y * 9 + x
  · subst hj
    by_cases hlen : y * 9 + x < g.length
    · rw [cellVal_set_self _ _ _ _ (by rwa [length_clone]), cellVal_set_self _ _ _ _ hlen]
    · have h1 : ∀ h : Board, h.length ≤ y * 9 + x → set_cell h x y (some v) = h := by
        intro h hh
        rw [set_cell, List.set_eq_of_length_le hh]
      rw [h1 (clone g) (by rw [length_clone]; omega), h1 g (by omega), cellVal_clone]
  · rw [cellVal_set_ne _ _ _ _ _ hj, cellVal_set_ne _ _ _ _ _ hj, cellVal_clone]

theorem filterMap_sublist_mono (f1 f2 : Nat → Option Nat)
    (h : ∀ a v, f1 a = some v → f2 a = some v) :
    ∀ l : List Nat, List.Sublist (l.filterMap f1) (l.filterMap f2) := by
  intro l
  induction l with
  | nil => exact List.Sublist.refl _
  | cons a t ih =>
    rw [List.filterMap_cons, List.filterMap_cons]
    cases hf1 : f1 a with
    | none =>
      cases hf2 : f2 a with
      | none => exact ih
      | some w => exact ih.cons w
    | some w =>
      rw [h a w hf1]
      exact ih.cons₂ w

theorem is_valid_of_val_le (g sol : Board) (hle : ValLe g sol)
    (hv : is_valid sol = true) : is_valid g = true := by
  rw [is_valid_iff] at hv ⊢
  intro i hi
  obtain ⟨hr, hc, hk⟩ := hv i hi
  refine ⟨?_, ?_, ?_⟩
  · exact hr.sublist (filterMap_sublist_mono _ _ (fun x v hx => hle (i * 9 + x) v hx)
      (List.range 9))
  · exact hc.sublist (filterMap_sublist_mono _ _ (fun y v hy => hle (y * 9 + i) v hy)
      (List.range 9))
  · exact hk.sublist (filterMap_sublist_mono _ _
      (fun d v hd => hle (((i / 3) * 3 + d / 3) * 9 + ((i % 3) * 3 + d % 3)) v hd)
      (List.range 9))

/-! Claim C10: the backtracking solver restores the board exactly when it
reports failure. -/

theorem try_nums_restore (solveF : Nat → Board → Option (Bool × Board × Nat))
    (hrec : ∀ k g g' k', solveF k g = some (false, g', k') → g' = g) :
    ∀ (nums : List Nat) (x y k : Nat) (g : Board),
      cellVal g (y * 9 + x) = none →
      ∀ g' k', try_nums solveF nums x y k g = some (false, g', k') → g' = g := by
  intro nums
  induction nums with
  | nil =>
    intro x y k g hnone g' k' h
    rw [try_nums] at h
    simp only [Option.some_inj, Prod.mk.injEq] at h
    exact h.2.1.symm
  | cons n rest ihn =>
    intro x y k g hnone g' k' h
    rw [try_nums] at h
    cases hwbv : would_be_valid g x y n with
    | false =>
      rw [hwbv, if_neg (by simp)] at h
      exact ihn x y k g hnone g' k' h
    | true =>
      rw [hwbv, if_pos rfl] at h
      cases hrc : solveF k (set_cell g x y (some n)) with
      | none => rw [hrc] at h; cases h
      | some r =>
        obtain ⟨b1, g1, k1⟩ := r
        rw [hrc] at h
        cases b1 with
        | true => simp at h
        | false =>
          have hg1 : g1 = set_cell g x y (some n) := hrec k _ g1 k1 hrc
          have h2 : try_nums solveF rest x y k1 (set_cell g1 x y none) =
              some (false, g', k') := h
          rw [hg1, set_cell_set_cell, set_cell_none_of_none g x y hnone] at h2
          exact ihn x y k1 g hnone g' k' h2

/-- Claim C10: whenever solve_sudoku reports failure, the returned board
is exactly the board it was called on: every tentative assignment has
been undone. -/
theorem solve_sudoku_false_unchanged (sh : Nat → List Nat) :
    ∀ (fuel k : Nat) (g g' : Board) (k' : Nat),
      solve_sudoku sh fuel k g = some (false, g', k') → g' = g := by
  intro fuel
  induction fuel with
  | zero => intro k g g' k' h; cases h
  | succ fuel ih =>
    intro k g g' k' h
    rw [solve_sudoku] at h
    cases hfe : find_empty g with
    | none => rw [hfe] at h; simp at h
    | some i =>
      rw [hfe] at h
      have hnone := (find_empty_some g i hfe).2
      have hnone2 : cellVal g ((i / 9) * 9 + i % 9) = none := by
        rw [show (i / 9) * 9 + i % 9 = i by omega]
        exact hnone
      exact try_nums_restore (solve_sudoku sh fuel)
        (fun k2 g2 g2' k2' h2 => ih k2 g2 g2' k2' h2) (sh k) (i % 9) (i / 9) (k + 1) g
        hnone2 g' k' h

/-- Witness for solve_sudoku_false_unchanged: on the contradictory board
gBad the top-level solve fails after trying all nine candidates for cell
(8, 0), and the returned board is gBad itself. -/
theorem solve_sudoku_false_unchanged_witness :
    solve_sudoku (fun _ => nums19) 82 0 gBad = some (false, gBad, 1) ∧ gBad = gBad :=
  ⟨by decide,
   solve_sudoku_false_unchanged (fun _ => nums19) 82 0 gBad gBad 1 (by decide)⟩

/-! Claim C2: the backtracking solver always completes an empty board.
First a shape lemma: with fuel above the unsolved count the solver always
returns some result; a failure returns the input board unchanged and a
success returns a complete valid board. -/

theorem val_le_set (g sol : Board) (x y v : Nat) (hle : ValLe g sol)
    (hsolval : cellVal sol (y * 9 + x) = some v) (hlen : y * 9 + x < g.length) :
    ValLe (set_cell g x y (some v)) sol := by
  intro j w hw
  by_cases hj : j = y * 9 + x
  · subst hj
    rw [cellVal_set_self _ _ _ _ hlen] at hw
    cases hw
    exact hsolval
  · rw [cellVal_set_ne _ _ _ _ _ hj] at hw
    exact hle j w hw

theorem try_nums_shape (sh : Nat → List Nat) (fuel : Nat)
    (ihrec : ∀ k g, get_unsolved_count g < fuel → is_valid g = true →
      ∃ b g' k', solve_sudoku sh fuel k g = some (b, g', k') ∧
        (b = false → g' = g) ∧
        (b = true → CompleteB g' ∧ is_valid g' = true ∧ g'.length = g.length ∧
          (InRange g → InRange g'))) :
    ∀ (nums : List Nat) (x y k : Nat) (g : Board),
      (∀ n ∈ nums, n ∈ nums19) →
      y * 9 + x < g.length →
      cellVal g (y * 9 + x) = none →
      get_unsolved_count g ≤ fuel →
      is_valid g = true →
      ∃ b g' k', try_nums (solve_sudoku sh fuel) nums x y k g = some (b, g', k') ∧
        (b = false → g' = g) ∧
        (b = true → CompleteB g' ∧ is_valid g' = true ∧ g'.length = g.length ∧
          (InRange g → InRange g')) := by
  intro nums
  induction nums with
  | nil =>
    intro x y k g _ _ _ _ _
    exact ⟨false, g, k, by rw [try_nums], fun _ => rfl, by simp⟩
  | cons n rest ihn =>
    intro x y k g hmem hlen hnone hcnt hval
    have hmemr : ∀ m ∈ rest, m ∈ nums19 := fun m hm => hmem m (List.mem_cons_of_mem n hm)
    cases hwbv : would_be_valid g x y n with
    | false =>
      obtain ⟨b, g', k', heq, hf, ht⟩ := ihn x y k g hmemr hlen hnone hcnt hval
      exact ⟨b, g', k', by rw [try_nums, hwbv, if_neg (by simp)]; exact heq, hf, ht⟩
    | true =>
      have hval1 : is_valid (set_cell g x y (some n)) = true := by
        rw [← would_be_valid_eq]
        exact hwbv
      have hcnt1 : get_unsolved_count (set_cell g x y (some n)) + 1 =
          get_unsolved_count g := by
        rw [set_cell]
        exact unsolved_count_set g (y * 9 + x) _ hlen hnone (by simp)
      obtain ⟨b1, g1', k1, hreq, hrest1, hsucc1⟩ :=
        ihrec k (set_cell g x y (some n)) (by omega) hval1
      cases b1 with
      | true =>
        obtain ⟨hc, hv2, hl2, hr2⟩ := hsucc1 rfl
        refine ⟨true, g1', k1, ?_, by simp, ?_⟩
        · rw [try_nums, hwbv, if_pos rfl, hreq]
        · intro _
          refine ⟨hc, hv2, ?_, ?_⟩
          · rw [hl2, length_set_cell]
          · intro hrg
            exact hr2 (inrange_set g x y n hrg (hmem n (List.mem_cons_self n rest)))
      | false =>
        have hg1 : g1' = set_cell g x y (some n) := hrest1 rfl
        obtain ⟨b, g', k', heq, hf, ht⟩ := ihn x y k1 g hmemr hlen hnone hcnt hval
        refine ⟨b, g', k', ?_, hf, ht⟩
        rw [try_nums, hwbv, if_pos rfl, hreq]
        show try_nums (solve_sudoku sh fuel) rest x y k1 (set_cell g1' x y none) =
          some (b, g', k')
        rw [hg1, set_cell_set_cell, set_cell_none_of_none g x y hnone]
        exact heq

theorem solve_sudoku_shape (sh : Nat → List Nat)
    (hsh19 : ∀ k n, n ∈ sh k → n ∈ nums19) :
    ∀ fuel k g, get_unsolved_count g < fuel → is_valid g = true →
      ∃ b g' k', solve_sudoku sh fuel k g = some (b, g', k') ∧
        (b = false → g' = g) ∧
        (b = true → CompleteB g' ∧ is_valid g' = true ∧ g'.length = g.length ∧
          (InRange g → InRange g')) := by
  intro fuel
  induction fuel with
  | zero => intro k g hcnt hval; omega
  | succ fuel ih =>
    intro k g hcnt hval
    cases hfe : find_empty g with
    | none =>
      refine ⟨true, g, k, ?_, by simp, ?_⟩
      · rw [solve_sudoku, hfe]
      · intro _
        exact ⟨(find_empty_none g).mp hfe, hval, rfl, fun hr => hr⟩
    | some i =>
      obtain ⟨hilen, hinone⟩ := find_empty_some g i hfe
      have hlen2 : (i / 9) * 9 + i % 9 < g.length := by omega
      have hnone2 : cellVal g ((i / 9) * 9 + i % 9) = none := by
        rw [show (i / 9) * 9 + i % 9 = i by omega]
        exact hinone
      obtain ⟨b, g', k', heq, hf, ht⟩ :=
        try_nums_shape sh fuel ih (sh k) (i % 9) (i / 9) (k + 1) g
          (fun n hn => hsh19 k n hn) hlen2 hnone2 (by omega) hval
      refine ⟨b, g', k', ?_, hf, ht⟩
      rw [solve_sudoku, hfe]
      exact heq

/-! Completeness of the backtracking search: if a fixed complete valid
extension sol of the current board exists, the candidate loop cannot
fail, because the value sol assigns to the current cell always passes
would_be_valid and leads (inductively) to success. -/

theorem try_nums_success (sh : Nat → List Nat) (fuel : Nat) (sol : Board)
    (hsolv : is_valid sol = true)
    (ihshape : ∀ k g, get_unsolved_count g < fuel → is_valid g = true →
      ∃ b g' k', solve_sudoku sh fuel k g = some (b, g', k') ∧
        (b = false → g' = g) ∧
        (b = true → CompleteB g' ∧ is_valid g' = true ∧ g'.length = g.length ∧
          (InRange g → InRange g')))
    (ihsucc : ∀ k g, get_unsolved_count g < fuel → is_valid g = true →
      sol.length = g.length → ValLe g sol →
      ∀ b g' k', solve_sudoku sh fuel k g = some (b, g', k') → b = true) :
    ∀ (nums : List Nat) (x y k : Nat) (g : Board) (v : Nat),
      v ∈ nums →
      cellVal sol (y * 9 + x) = some v →
      sol.length = g.length →
      ValLe g sol →
      y * 9 + x < g.length →
      cellVal g (y * 9 + x) = none →
      get_unsolved_count g ≤ fuel →
      is_valid g = true →
      ∀ b g' k', try_nums (solve_sudoku sh fuel) nums x y k g = some (b, g', k') →
        b = true := by
  intro nums
  induction nums with
  | nil =>
    intro x y k g v hv
    cases hv
  | cons n rest ihn =>
    intro x y k g v hv hsolval hslen hle hlen hnone hcnt hval b g' k' heq
    rw [try_nums] at heq
    cases hwbv : would_be_valid g x y n with
    | false =>
      rw [hwbv, if_neg (by simp)] at heq
      have hnv : n ≠ v := by
        intro he
        subst he
        have hle1 : ValLe (set_cell g x y (some n)) sol :=
          val_le_set g sol x y n hle hsolval hlen
        have hv1 : is_valid (set_cell g x y (some n)) = true :=
          is_valid_of_val_le _ sol hle1 hsolv
        rw [← would_be_valid_eq] at hv1
        rw [hv1] at hwbv
        cases hwbv
      have hvrest : v ∈ rest := by
        rcases List.mem_cons.mp hv with he | hm
        · exact absurd he.symm hnv
        · exact hm
      exact ihn x y k g v hvrest hsolval hslen hle hlen hnone hcnt hval b g' k' heq
    | true =>
      rw [hwbv, if_pos rfl] at heq
      have hval1 : is_valid (set_cell g x y (some n)) = true := by
        rw [← would_be_valid_eq]
        exact hwbv
      have hcnt1 : get_unsolved_count (set_cell g x y (some n)) + 1 =
          get_unsolved_count g := by
        rw [set_cell]
        exact unsolved_count_set g (y * 9 + x) _ hlen hnone (by simp)
      obtain ⟨b1, g1', k1, hreq, hrest1, _⟩ :=
        ihshape k (set_cell g x y (some n)) (by omega) hval1
      rw [hreq] at heq
      cases b1 with
      | true =>
        have heq2 : some (true, g1', k1) = some (b, g', k') := heq
        simp only [Option.some_inj, Prod.mk.injEq] at heq2
        exact heq2.1.symm
      | false =>
        by_cases hnveq : n = v
        · subst hnveq
          have hle1 : ValLe (set_cell g x y (some n)) sol :=
            val_le_set g sol x y n hle hsolval hlen
          have := ihsucc k (set_cell g x y (some n)) (by omega) hval1
            (by rw [length_set_cell]; exact hslen) hle1 false g1' k1 hreq
          cases this
        · have hg1 : g1' = set_cell g x y (some n) := hrest1 rfl
          have heq2 : try_nums (solve_sudoku sh fuel) rest x y k1
              (set_cell g1' x y none) = some (b, g', k') := heq
          rw [hg1, set_cell_set_cell, set_cell_none_of_none g x y hnone] at heq2
          have hvrest : v ∈ rest := by
            rcases List.mem_cons.mp hv with he | hm
            · exact absurd he.symm hnveq
            · exact hm
          exact ihn x y k1 g v hvrest hsolval hslen hle hlen hnone hcnt hval b g' k' heq2

theorem solve_sudoku_success (sh : Nat → List Nat) (sol : Board)
    (hsolv : is_valid sol = true) (hsolc : CompleteB sol) (hsolr : InRange sol)
    (hsh : ∀ k, (sh k).Perm nums19) :
    ∀ fuel k g, get_unsolved_count g < fuel → is_valid g = true →
      sol.length = g.length → ValLe g sol →
      ∀ b g' k', solve_sudoku sh fuel k g = some (b, g', k') → b = true := by
  have hsh19 : ∀ k n, n ∈ sh k → n ∈ nums19 := fun k n hn => (hsh k).mem_iff.mp hn
  intro fuel
  induction fuel with
  | zero => intro k g hcnt; omega
  | succ fuel ih =>
    intro k g hcnt hval hslen hle b g' k' heq
    rw [solve_sudoku] at heq
    cases hfe : find_empty g with
    | none =>
      rw [hfe] at heq
      have heq2 : some (true, g, k) = some (b, g', k') := heq
      simp only [Option.some_inj, Prod.mk.injEq] at heq2
      exact heq2.1.symm
    | some i =>
      rw [hfe] at heq
      obtain ⟨hilen, hinone⟩ := find_empty_some g i hfe
      have hsi : i < sol.length := by omega
      have hsmem := cell_getD_mem sol i hsi
      obtain ⟨v, hv⟩ : ∃ v, cellVal sol i = some v := by
        cases hcv : cellVal sol i with
        | none => exact absurd hcv (hsolc _ hsmem)
        | some w => exact ⟨w, rfl⟩
      have hv19 : v ∈ nums19 := hsolr _ hsmem v hv
      have hvsh : v ∈ sh k := (hsh k).mem_iff.mpr hv19
      have hsolval : cellVal sol ((i / 9) * 9 + i % 9) = some v := by
        rw [show (i / 9) * 9 + i % 9 = i by omega]
        exact hv
      have hlen2 : (i / 9) * 9 + i % 9 < g.length := by omega
      have hnone2 : cellVal g ((i / 9) * 9 + i % 9) = none := by
        rw [show (i / 9) * 9 + i % 9 = i by omega]
        exact hinone
      exact try_nums_success sh fuel sol hsolv
        (solve_sudoku_shape sh hsh19 fuel) ih (sh k) (i % 9) (i / 9) (k + 1) g v
        hvsh hsolval hslen hle hlen2 hnone2 (by omega) hval b g' k' heq

theorem cellVal_fresh (i : Nat) : cellVal fresh_board i = none := by
  unfold cellVal fresh_board
  by_cases hi : i < 81
  · rw [List.getD_eq_getElem _ _ (by simpa using hi), List.getElem_replicate]
  · rw [List.getD_eq_default _ _ (by simpa using Nat.le_of_not_lt hi)]
    rfl

theorem length_filterMap_of_all_some (f : Nat → Option Nat) :
    ∀ l : List Nat, (∀ a ∈ l, (f a).isSome) → (l.filterMap f).length = l.length := by
  intro l
  induction l with
  | nil => intro _; rfl
  | cons a t ih =>
    intro h
    rw [List.filterMap_cons]
    cases hfa : f a with
    | none =>
      have := h a (List.mem_cons_self a t)
      rw [hfa] at this
      cases this
    | some w =>
      simp only [List.length_cons, List.length_cons]
      rw [ih (fun b hb => h b (List.mem_cons_of_mem a hb))]

theorem unit_perm_of (g : Board) (hlen : g.length = 81) (hc : CompleteB g)
    (hr : InRange g) (f : Nat → Option Nat) (idxOf : Nat → Nat)
    (hf : ∀ d, f d = cellVal g (idxOf d)) (hidx : ∀ d, d < 9 → idxOf d < 81)
    (hnd : ((List.range 9).filterMap f).Nodup) :
    ((List.range 9).filterMap f).Perm nums19 := by
  have hsome : ∀ d ∈ List.range 9, (f d).isSome := by
    intro d hd
    rw [hf d]
    have hdi : idxOf d < g.length := by
      rw [hlen]
      exact hidx d (List.mem_range.mp hd)
    have hmem := cell_getD_mem g (idxOf d) hdi
    cases hcv : cellVal g (idxOf d) with
    | none => exact absurd hcv (hc _ hmem)
    | some w => rfl
  have hlen9 : ((List.range 9).filterMap f).length = 9 := by
    rw [length_filterMap_of_all_some f (List.range 9) hsome, List.length_range]
  have hsub : ((List.range 9).filterMap f) ⊆ nums19 := by
    intro w hw
    rw [List.mem_filterMap] at hw
    obtain ⟨d, hd, hfd⟩ := hw
    rw [hf d] at hfd
    have hdi : idxOf d < g.length := by
      rw [hlen]
      exact hidx d (List.mem_range.mp hd)
    have hmem := cell_getD_mem g (idxOf d) hdi
    exact hr _ hmem w hfd
  exact (hnd.subperm hsub).perm_of_length_le (by rw [hlen9]; rfl)

theorem units_perm (g : Board) (hlen : g.length = 81) (hc : CompleteB g)
    (hv : is_valid g = true) (hr : InRange g) :
    ∀ i, i < 9 → (get_row g i).Perm nums19 ∧ (get_column g i).Perm nums19 ∧
      (get_chunk g i).Perm nums19 := by
  intro i hi
  obtain ⟨hndr, hndc, hndk⟩ := (is_valid_iff g).mp hv i hi
  refine ⟨?_, ?_, ?_⟩
  · exact unit_perm_of g hlen hc hr _ (fun x => i * 9 + x) (fun _ => rfl)
      (fun d hd => by show i * 9 + d < 81; omega) hndr
  · exact unit_perm_of g hlen hc hr _ (fun y => y * 9 + i) (fun _ => rfl)
      (fun d hd => by show d * 9 + i < 81; omega) hndc
  · exact unit_perm_of g hlen hc hr _
      (fun d => ((i / 3) * 3 + d / 3) * 9 + ((i % 3) * 3 + d % 3)) (fun _ => rfl)
      (fun d hd => by show ((i / 3) * 3 + d / 3) * 9 + ((i % 3) * 3 + d % 3) < 81; omega) hndk

/-- Claim C2: for every stream of shuffles (each a permutation of 1..9,
modelling random.shuffle), solve_sudoku run on the all-unassigned board
with fuel 82 (strictly more than the 81 possible recursion levels, so
the fuel never runs out and a some-result is genuine termination of the
source recursion) returns success, and the final board is fully assigned
with every row, column and chunk a permutation of 1..9. -/
theorem solve_sudoku_empty_succeeds (sh : Nat → List Nat)
    (hsh : ∀ k, (sh k).Perm nums19) :
    ∃ g k', solve_sudoku sh 82 0 fresh_board = some (true, g, k') ∧
      CompleteB g ∧
      (∀ i, i < 9 → (get_row g i).Perm nums19 ∧ (get_column g i).Perm nums19 ∧
        (get_chunk g i).Perm nums19) := by
  have hsh19 : ∀ k n, n ∈ sh k → n ∈ nums19 := fun k n hn => (hsh k).mem_iff.mp hn
  have hcnt : get_unsolved_count fresh_board < 82 := by decide
  have hval : is_valid fresh_board = true := by decide
  obtain ⟨b, g, k', heq, _, ht⟩ := solve_sudoku_shape sh hsh19 82 0 fresh_board hcnt hval
  have hlefresh : ValLe fresh_board solBoard := by
    intro i v hv
    rw [cellVal_fresh i] at hv
    cases hv
  have hb : b = true :=
    solve_sudoku_success sh solBoard (by decide) (by decide) (by decide) hsh 82 0
      fresh_board hcnt hval (by decide) hlefresh b g k' heq
  subst hb
  obtain ⟨hcomp, hvg, hlg, hrg⟩ := ht rfl
  have hrange : InRange g := hrg (by decide)
  have hlen81 : g.length = 81 := by rw [hlg]; rfl
  exact ⟨g, k', heq, hcomp, units_perm g hlen81 hcomp hvg hrange⟩

/-- Witness for solve_sudoku_empty_succeeds with the identity shuffle
stream. -/
theorem solve_sudoku_empty_succeeds_witness :
    ∃ g k', solve_sudoku (fun _ => nums19) 82 0 fresh_board = some (true, g, k') ∧
      CompleteB g ∧
      (∀ i, i < 9 → (get_row g i).Perm nums19 ∧ (get_column g i).Perm nums19 ∧
        (get_chunk g i).Perm nums19) :=
  solve_sudoku_empty_succeeds (fun _ => nums19) (fun _ => List.Perm.refl nums19)

end PyDuko
